import Mathlib

/-!
Shallow embedding of the ZK-Market-Data-Processor core
(src/src/main.rs, src/src/bin/preprocess.rs, src/new_sha/sha_hasher/src/main.rs).

Bytes are modelled as natural numbers (values below 256), byte buffers as
List Nat, 32-bit and 64-bit machine words as Nat reduced modulo 2^32 and
2^64 where overflow matters, and Rust i64 values as Int.  Fallible
operations (slice indexing, which panics in Rust when the range is out of
bounds) return Except.
-/

namespace ZKMDP

/-! ## 32-bit word primitives (for SHA-256) -/

/-- Truncate to a 32-bit word. -/
def w32 (x : Nat) : Nat := x % 4294967296

/-- Addition modulo 2^32. -/
def add32 (a b : Nat) : Nat := (a + b) % 4294967296

/-- Right rotation of a 32-bit word by n bits. -/
def rotr32 (n x : Nat) : Nat := ((x >>> n) ||| (x <<< (32 - n))) % 4294967296

/-- Bitwise complement of a 32-bit word. -/
def not32 (x : Nat) : Nat := x ^^^ 4294967295

/-! ## SHA-256 (FIPS 180-4), the primitive the sha2 crate implements -/

/-- SHA-256 choice function. -/
def shaCh (x y z : Nat) : Nat := (x &&& y) ^^^ (not32 x &&& z)

/-- SHA-256 majority function. -/
def shaMaj (x y z : Nat) : Nat := (x &&& y) ^^^ (x &&& z) ^^^ (y &&& z)

/-- SHA-256 big sigma 0. -/
def bSig0 (x : Nat) : Nat := rotr32 2 x ^^^ rotr32 13 x ^^^ rotr32 22 x

/-- SHA-256 big sigma 1. -/
def bSig1 (x : Nat) : Nat := rotr32 6 x ^^^ rotr32 11 x ^^^ rotr32 25 x

/-- SHA-256 small sigma 0. -/
def sSig0 (x : Nat) : Nat := rotr32 7 x ^^^ rotr32 18 x ^^^ (x >>> 3)

/-- SHA-256 small sigma 1. -/
def sSig1 (x : Nat) : Nat := rotr32 17 x ^^^ rotr32 19 x ^^^ (x >>> 10)

/-- The 64 SHA-256 round constants. -/
def shaK : List Nat :=
  [1116352408, 1899447441, 3049323471, 3921009573,
   961987163, 1508970993, 2453635748, 2870763221,
   3624381080, 310598401, 607225278, 1426881987,
   1925078388, 2162078206, 2614888103, 3248222580,
   3835390401, 4022224774, 264347078, 604807628,
   770255983, 1249150122, 1555081692, 1996064986,
   2554220882, 2821834349, 2952996808, 3210313671,
   3336571891, 3584528711, 113926993, 338241895,
   666307205, 773529912, 1294757372, 1396182291,
   1695183700, 1986661051, 2177026350, 2456956037,
   2730485921, 2820302411, 3259730800, 3345764771,
   3516065817, 3600352804, 4094571909, 275423344,
   430227734, 506948616, 659060556, 883997877,
   958139571, 1322822218, 1537002063, 1747873779,
   1955562222, 2024104815, 2227730452, 2361852424,
   2428436474, 2756734187, 3204031479, 3329325298]

/-- The SHA-256 initial hash value. -/
def shaH0 : List Nat :=
  [1779033703, 3144134277, 1013904242, 2773480762,
   1359893119, 2600822924, 528734635, 1541459225]

/-- Big-endian bytes of a natural number, k bytes wide. -/
def beBytes : Nat → Nat → List Nat
  | 0, _ => []
  | k + 1, n => beBytes k (n / 256) ++ [n % 256]

/-- Big-endian value of a byte list (most significant byte first). -/
def beVal (l : List Nat) : Nat := l.foldl (fun acc b => acc * 256 + b) 0

/-- Split a list into chunks of sz elements (fuel-driven; fuel bounds the
number of chunks produced). -/
def chunksAux (sz : Nat) : Nat → List Nat → List (List Nat)
  | 0, _ => []
  | _, [] => []
  | fuel + 1, l => l.take sz :: chunksAux sz fuel (l.drop sz)

/-- Split a list into chunks of sz elements. -/
def chunks (sz : Nat) (l : List Nat) : List (List Nat) := chunksAux sz l.length l

/-- Extend the 16-word message schedule of one block to 64 words. -/
def schedule (ws : List Nat) : List Nat :=
  (List.range 48).foldl
    (fun acc i =>
      let t := i + 16
      acc ++ [add32 (add32 (sSig1 (acc.getD (t - 2) 0)) (acc.getD (t - 7) 0))
                    (add32 (sSig0 (acc.getD (t - 15) 0)) (acc.getD (t - 16) 0))])
    ws

/-- One SHA-256 round: transform the 8-word working state with a round
constant and a schedule word. -/
def shaRound (st : List Nat) (kw : Nat × Nat) : List Nat :=
  match st with
  | [a, b, c, d, e, f, g, h] =>
    let t1 := add32 (add32 (add32 h (bSig1 e)) (add32 (shaCh e f g) kw.1)) kw.2
    let t2 := add32 (bSig0 a) (shaMaj a b c)
    [add32 t1 t2, a, b, c, add32 d t1, e, f, g]
  | _ => st

/-- Compress one 64-byte block into the running 8-word hash state. -/
def shaCompress (h : List Nat) (block : List Nat) : List Nat :=
  let ws := schedule ((chunks 4 block).map beVal)
  let final := (shaK.zip ws).foldl shaRound h
  List.zipWith add32 h final

/-- SHA-256 padding: append 0x80, zeros to 56 mod 64, and the 64-bit
big-endian bit length. -/
def shaPad (msg : List Nat) : List Nat :=
  msg ++ 128 :: List.replicate ((119 - msg.length % 64) % 64) 0
      ++ beBytes 8 (8 * msg.length)

/-- SHA-256 of a byte list, as the 32 digest bytes. -/
def sha256 (msg : List Nat) : List Nat :=
  (((chunks 64 (shaPad msg)).foldl shaCompress shaH0).map (beBytes 4)).flatten

/-! ## Input decoder (src/src/main.rs lines 56-61)

Rust range indexing input[a..b] performs a bounds check and panics when the
range does not fit the buffer; rustSlice models the indexing operation with
the panic as the error branch of Except. -/

/-- Rust slice indexing l[a..b]: the sub-list on success, the panic as an
error when the range is out of bounds. -/
def rustSlice (l : List Nat) (a b : Nat) : Except String (List Nat) :=
  if a ≤ b ∧ b ≤ l.length then Except.ok ((l.drop a).take (b - a))
  else Except.error "range end index out of range for slice"

/-- Little-endian u64 value of a byte list (u64 from_le_bytes semantics:
least significant byte first). -/
def leU64 (l : List Nat) : Nat := l.foldr (fun b acc => acc * 256 + b) 0

/-- The decoder of main: n = u64 from_le_bytes of input[0..8], seed =
input[8..40] copied into a 32-byte array.  Each slice indexing can panic
(error branch); there is no up-front length check in the source. -/
def decode (input : List Nat) : Except String (Nat × List Nat) := do
  let s1 ← rustSlice input 0 8
  let n := leU64 s1
  let s2 ← rustSlice input 8 40
  Except.ok (n, s2)

/-- The first statement of the decoder alone (main.rs line 59): extraction
of the count field n from input[0..8].  In the source this statement runs,
and its slice indexing succeeds, before input[8..40] is ever touched. -/
def decodeCountField (input : List Nat) : Except String Nat := do
  let s1 ← rustSlice input 0 8
  Except.ok (leU64 s1)

/-! ## Hash chain engine (src/src/main.rs lines 64-69) -/

/-- The hash-chain loop: apply SHA-256 to the 32-byte state n times. -/
def hashChain : Nat → List Nat → List Nat
  | 0, state => state
  | n + 1, state => hashChain n (sha256 state)

/-- The successive values taken by the state variable of the loop: the seed,
then each digest in turn.  One entry per loop iteration plus the initial
state. -/
def chainStates : Nat → List Nat → List (List Nat)
  | 0, state => [state]
  | n + 1, state => state :: chainStates n (sha256 state)

/-! ## Output encoder (src/src/main.rs lines 72-75) -/

/-- The 8 public output words: word i is BigEndian read_u32 of digest bytes
[4i, 4i+4). -/
def outputWords (digest : List Nat) : List Nat :=
  (List.range 8).map (fun i => beVal ((digest.drop (4 * i)).take 4))

/-! ## Trading-signal variant (src/new_sha/sha_hasher/src/main.rs) -/

/-- Signed 64-bit little-endian interpretation of 8 bytes (i64
from_le_bytes semantics). -/
def i64FromLE (l : List Nat) : Int :=
  let n := leU64 l
  if n < 9223372036854775808 then (n : Int) else (n : Int) - 18446744073709551616

/-- Rust i64 abs with release-profile (two's-complement wrapping) overflow
semantics: the absolute value, except that the minimum i64 negates to
itself.  (A build with overflow checks enabled panics there instead; either
way the result is not the mathematical absolute value.) -/
def absI64 (v : Int) : Int := if v = -9223372036854775808 then v else |v|

/-- Truncating Rust cast to u32 (as u32): the low 32 bits of the two's
complement representation. -/
def toU32 (v : Int) : Nat := (v.emod 4294967296).toNat

/-- The trading-signal main: parse eth_price, price_change_24h and
timestamp from the input, classify, and produce the four public outputs
set_output writes at indices 0..3. -/
def tradingOutputs (input : List Nat) : Except String (List Nat) := do
  let s0 ← rustSlice input 0 8
  let ethPrice := leU64 s0
  let s1 ← rustSlice input 8 16
  let change := i64FromLE s1
  let s2 ← rustSlice input 16 24
  let timestamp := leU64 s2
  let signal : Int := if change < -500 then 1 else if change > 300 then 2 else 0
  let risk : Int := if absI64 change > 1000 then 3 else 1
  Except.ok [timestamp % 4294967296, toU32 signal, toU32 risk,
             (ethPrice / 100) % 4294967296]

/-! ## Preprocessing (src/src/bin/preprocess.rs lines 29-36, and the
identical prepare_input in src/src/main.rs lines 36-42) -/

/-- Vec resize(n, x): truncate to n elements, or extend with copies of x up
to n elements. -/
def vecResize (v : List Nat) (n : Nat) (x : Nat) : List Nat :=
  v.take n ++ List.replicate (n - v.length) x

/-- Little-endian bytes of a natural number, k bytes wide (u64
to_le_bytes when k = 8). -/
def leBytes : Nat → Nat → List Nat
  | 0, _ => []
  | k + 1, n => n % 256 :: leBytes k (n / 256)

/-- The binary blob preprocess writes to input.bin: the count as 8
little-endian bytes followed by the secret bytes resized to 32. -/
def prepareBlob (n : Nat) (secret : List Nat) : List Nat :=
  leBytes 8 n ++ vecResize secret 32 0

/-! ## Helper lemmas -/

theorem leU64_nil : leU64 [] = 0 := rfl

theorem leU64_cons (b : Nat) (t : List Nat) : leU64 (b :: t) = leU64 t * 256 + b := rfl

/-- A byte list read little-endian is the positional sum of its bytes. -/
theorem leU64_eq_sum (l : List Nat) :
    leU64 l = ∑ i ∈ Finset.range l.length, l.getD i 0 * 256 ^ i := by
  induction l with
  | nil => simp [leU64_nil]
  | cons b t ih =>
    rw [leU64_cons, ih, List.length_cons, Finset.sum_range_succ' (fun i => (b :: t).getD i 0 * 256 ^ i)]
    simp [List.getD_cons_succ, List.getD_cons_zero, Finset.sum_mul, pow_succ]
    exact Finset.sum_congr rfl (fun i _ => by ring)

theorem leBytes_length (k : Nat) : ∀ n, (leBytes k n).length = k := by
  induction k with
  | zero => intro n; rfl
  | succ k ih => intro n; simp [leBytes, ih]

/-- Reading back the little-endian bytes of n recovers n modulo 256^k. -/
theorem leU64_leBytes (k : Nat) : ∀ n, leU64 (leBytes k n) = n % 256 ^ k := by
  induction k with
  | zero => intro n; simp [leBytes, leU64_nil, Nat.mod_one]
  | succ k ih =>
    intro n
    rw [leBytes, leU64_cons, ih, pow_succ, mul_comm (256 ^ k) 256, Nat.mod_mul]
    ring

theorem beBytes_length (k : Nat) : ∀ n, (beBytes k n).length = k := by
  induction k with
  | zero => intro n; rfl
  | succ k ih => intro n; simp [beBytes, ih]

/-- beVal on a 4-element list, written out positionally. -/
theorem beVal_len4 (l : List Nat) (h : l.length = 4) :
    beVal l = l.getD 0 0 * 16777216 + l.getD 1 0 * 65536 + l.getD 2 0 * 256 + l.getD 3 0 := by
  rcases l with _ | ⟨a, _ | ⟨b, _ | ⟨c, _ | ⟨d, _ | ⟨e, t⟩⟩⟩⟩⟩ <;> simp at h
  simp [beVal]
  ring

/-- Big-endian re-encoding inverts beVal on 4-byte chunks. -/
theorem beBytes_beVal_len4 (l : List Nat) (h : l.length = 4) (hb : ∀ b ∈ l, b < 256) :
    beBytes 4 (beVal l) = l := by
  rcases l with _ | ⟨a, _ | ⟨b, _ | ⟨c, _ | ⟨d, _ | ⟨e, t⟩⟩⟩⟩⟩ <;> simp at h
  have ha : a < 256 := hb a (by simp)
  have hbb : b < 256 := hb b (by simp)
  have hc : c < 256 := hb c (by simp)
  have hd : d < 256 := hb d (by simp)
  simp [beBytes, beVal, Nat.div_div_eq_div_mul]
  omega

/-- Concatenating the eight aligned 4-byte chunks of a list of length 4k
reassembles the list. -/
theorem flatten_chunks4 (k : Nat) : ∀ l : List Nat, l.length = 4 * k →
    ((List.range k).map (fun i => (l.drop (4 * i)).take 4)).flatten = l := by
  induction k with
  | zero =>
    intro l h
    simp at h
    simp [h]
  | succ k ih =>
    intro l h
    rw [List.range_succ_eq_map, List.map_cons, List.map_map, List.flatten_cons]
    have hrest : (List.range k).map ((fun i => (l.drop (4 * i)).take 4) ∘ Nat.succ)
        = (List.range k).map (fun i => ((l.drop 4).drop (4 * i)).take 4) := by
      apply List.map_congr_left
      intro i _
      simp only [Function.comp]
      rw [List.drop_drop]
      congr 1
      congr 1
      omega
    have hdl : (l.drop 4).length = 4 * k := by rw [List.length_drop, h]; omega
    rw [hrest, ih (l.drop 4) hdl]
    simp

/-- The loop applied once more hashes the result of the shorter chain. -/
theorem hashChain_succ_eq (n : Nat) : ∀ s, hashChain (n + 1) s = sha256 (hashChain n s) := by
  induction n with
  | zero => intro s; rfl
  | succ n ih =>
    intro s
    calc hashChain (n + 2) s = hashChain (n + 1) (sha256 s) := rfl
    _ = sha256 (hashChain n (sha256 s)) := ih (sha256 s)
    _ = sha256 (hashChain (n + 1) s) := rfl

/-- The loop is the n-fold iterate of the hash. -/
theorem hashChain_eq_iterate (n : Nat) : ∀ s, hashChain n s = sha256^[n] s := by
  induction n with
  | zero => intro s; rfl
  | succ n ih =>
    intro s
    rw [Function.iterate_succ_apply, ← ih (sha256 s)]
    rfl

/-- Successful decode, as take and drop of the buffer. -/
theorem decode_ok_of_len (input : List Nat) (h : 40 ≤ input.length) :
    decode input = Except.ok (leU64 (input.take 8), (input.drop 8).take 32) := by
  have h8 : 8 ≤ input.length := by omega
  simp [decode, rustSlice, h, h8]
  rfl

/-! ## Concrete buffers used in witnesses and counterexamples -/

/-- An all-zero 32-byte seed. -/
def seed0 : List Nat := List.replicate 32 0

/-- A 40-byte input buffer with distinct byte values. -/
def buf40 : List Nat := List.range 40

/-- The same buffer with one trailing byte appended. -/
def buf41 : List Nat := List.range 40 ++ [99]

/-- A 24-byte trading input whose price_change_24h field holds -1000. -/
def tradeDemo : List Nat :=
  [16, 39, 0, 0, 0, 0, 0, 0,
   24, 252, 255, 255, 255, 255, 255, 255,
   1, 0, 0, 0, 0, 0, 0, 0]

/-- A 24-byte trading input whose price_change_24h field holds the minimum
i64, -2^63. -/
def tradeMin : List Nat :=
  [0, 0, 0, 0, 0, 0, 0, 0,
   0, 0, 0, 0, 0, 0, 0, 128,
   0, 0, 0, 0, 0, 0, 0, 0]

/-! ## Claim theorems -/

/-- Claim C1: for every iteration count n and every 32-byte seed, the hash
chain satisfies the composition law
hashChain (n+1) seed = sha256 (hashChain n seed). -/
theorem hashChain_compose (n : Nat) (seed : List Nat) (h : seed.length = 32) :
    hashChain (n + 1) seed = sha256 (hashChain n seed) :=
  hashChain_succ_eq n seed

/-- Witness for C1 at n = 0 and the all-zero seed. -/
theorem hashChain_compose_witness :
    hashChain (0 + 1) seed0 = sha256 (hashChain 0 seed0) :=
  hashChain_compose 0 seed0 (by decide)

/-- Claim C2: for every 32-byte seed, zero iterations return the seed
unchanged. -/
theorem hashChain_zero (seed : List Nat) (h : seed.length = 32) :
    hashChain 0 seed = seed := rfl

/-- Witness for C2 at the all-zero seed. -/
theorem hashChain_zero_witness : hashChain 0 seed0 = seed0 :=
  hashChain_zero seed0 (by decide)

/-- Claim C6: the hash chain is a deterministic function of the pair
(n, seed): two runs on equal inputs agree, and the result is exactly the
n-fold iterate of sha256 on the seed, so nothing else can influence it. -/
theorem hashChain_deterministic (n₁ n₂ : Nat) (s₁ s₂ : List Nat)
    (hs : s₁.length = 32) (hn : n₁ = n₂) (hseed : s₁ = s₂) :
    hashChain n₁ s₁ = hashChain n₂ s₂ ∧ hashChain n₁ s₁ = sha256^[n₁] s₁ := by
  subst hn hseed
  exact ⟨rfl, hashChain_eq_iterate n₁ s₁⟩

/-- Witness for C6 at n = 2 and the all-zero seed. -/
theorem hashChain_deterministic_witness :
    hashChain 2 seed0 = hashChain 2 seed0 ∧ hashChain 2 seed0 = sha256^[2] seed0 :=
  hashChain_deterministic 2 2 seed0 seed0 (by decide) rfl rfl

/-- Claim C7: the engine terminates for every n and seed: the state variable
takes exactly n+1 values (one per loop iteration plus the initial seed),
beginning at the seed and ending at the returned digest, so the embedded
engine is a total function of (n, seed). -/
theorem hashChain_terminates (n : Nat) (seed : List Nat) :
    (chainStates n seed).length = n + 1
    ∧ (chainStates n seed).getD 0 [] = seed
    ∧ (chainStates n seed).getD n [] = hashChain n seed := by
  induction n generalizing seed with
  | zero => exact ⟨rfl, rfl, rfl⟩
  | succ n ih =>
    refine ⟨?_, rfl, ?_⟩
    · simp [chainStates, (ih (sha256 seed)).1]
    · simpa [chainStates, List.getD_cons_succ, hashChain] using (ih (sha256 seed)).2.2

/-- Claim C3: for every buffer of length at least 40, the decoder returns
the count as the little-endian 64-bit value of bytes [0, 8) and the seed as
exactly bytes [8, 40). -/
theorem decode_layout (input : List Nat) (h : 40 ≤ input.length) :
    decode input = Except.ok
      (∑ i ∈ Finset.range 8, input.getD i 0 * 256 ^ i, (input.drop 8).take 32)
    ∧ ((input.drop 8).take 32).length = 32
    ∧ ∀ i, i < 32 → ((input.drop 8).take 32).getD i 0 = input.getD (8 + i) 0 := by
  have h8 : 8 ≤ input.length := by omega
  refine ⟨?_, ?_, ?_⟩
  · rw [decode_ok_of_len input h]
    have hlen : (input.take 8).length = 8 := by simp; omega
    have hsum : leU64 (input.take 8) = ∑ i ∈ Finset.range 8, input.getD i 0 * 256 ^ i := by
      rw [leU64_eq_sum, hlen]
      refine Finset.sum_congr rfl (fun i hi => ?_)
      have hi8 : i < 8 := Finset.mem_range.mp hi
      simp [List.getD_eq_getElem?_getD, List.getElem?_take, hi8]
    rw [hsum]
  · simp
    omega
  · intro i hi
    have hidx : 8 + i < input.length := by omega
    simp [List.getD_eq_getElem?_getD, List.getElem?_take, hi, List.getElem?_drop]

/-- Witness for C3 at a concrete 40-byte buffer. -/
theorem decode_layout_witness :
    decode buf40 = Except.ok
      (∑ i ∈ Finset.range 8, buf40.getD i 0 * 256 ^ i, (buf40.drop 8).take 32)
    ∧ ((buf40.drop 8).take 32).length = 32
    ∧ ∀ i, i < 32 → ((buf40.drop 8).take 32).getD i 0 = buf40.getD (8 + i) 0 :=
  decode_layout buf40 (by decide)

/-- Claim C4 (amended): decoding succeeds exactly on buffers of length at
least 40 and produces no result on shorter ones; but the length is not
checked up front: the count-field extraction of line 59 succeeds on every
buffer of length at least 8, so on a buffer of length in [8, 40) a field is
extracted before the failure is detected by the second slice's bounds
panic. -/
theorem decode_err_iff (input : List Nat) :
    ((decode input).isOk = true ↔ 40 ≤ input.length)
    ∧ ((decodeCountField input).isOk = true ↔ 8 ≤ input.length) := by
  by_cases h8 : 8 ≤ input.length
  · by_cases h40 : 40 ≤ input.length
    · constructor
      · simp [decode_ok_of_len input h40, Except.isOk, Except.toBool, h40]
      · simp [decodeCountField, rustSlice, h8, Bind.bind, Except.bind,
              Except.isOk, Except.toBool]
    · constructor
      · simp [decode, rustSlice, h8, h40, Bind.bind, Except.bind,
              Except.isOk, Except.toBool]
      · simp [decodeCountField, rustSlice, h8, Bind.bind, Except.bind,
              Except.isOk, Except.toBool]
  · have h40 : ¬ 40 ≤ input.length := by omega
    constructor
    · simp [decode, rustSlice, h8, h40, Bind.bind, Except.bind,
            Except.isOk, Except.toBool]
    · simp [decodeCountField, rustSlice, h8, Bind.bind, Except.bind,
            Except.isOk, Except.toBool]

/-- Witness for C4 at a concrete 40-byte buffer. -/
theorem decode_err_iff_witness :
    ((decode buf40).isOk = true ↔ 40 ≤ buf40.length)
    ∧ ((decodeCountField buf40).isOk = true ↔ 8 ≤ buf40.length) :=
  decode_err_iff buf40

/-- Counterexample for C4 as stated: on a 10-byte buffer the decode fails,
yet the count-field slice of line 59 has already succeeded and yielded a
value, and the failure is the bounds panic of the slice input[8..40]
itself, not a MalformedInput error raised by a length check performed
before any slicing. -/
theorem decode_check_counterexample :
    (decode (List.replicate 10 0)).isOk = false
    ∧ decodeCountField (List.replicate 10 0) = Except.ok 0
    ∧ decode (List.replicate 10 0) =
        Except.error "range end index out of range for slice" := by
  refine ⟨?_, ?_, ?_⟩ <;> rfl

/-- Claim C8: the decoder depends only on the first 40 bytes: two buffers
of length at least 40 that agree on bytes [0, 40) decode identically. -/
theorem decode_prefix_only (b₁ b₂ : List Nat) (h₁ : 40 ≤ b₁.length)
    (h₂ : 40 ≤ b₂.length) (h : b₁.take 40 = b₂.take 40) :
    decode b₁ = decode b₂ := by
  rw [decode_ok_of_len b₁ h₁, decode_ok_of_len b₂ h₂]
  have ht : ∀ l : List Nat, l.take 8 = (l.take 40).take 8 := by
    intro l
    rw [List.take_take]
    norm_num
  have hd : ∀ l : List Nat, (l.drop 8).take 32 = (l.take 40).drop 8 := by
    intro l
    rw [List.drop_take]
  rw [ht b₁, ht b₂, hd b₁, hd b₂, h]

/-- Witness for C8: a 40-byte buffer and its 41-byte extension decode to
the same result. -/
theorem decode_prefix_only_witness : decode buf40 = decode buf41 :=
  decode_prefix_only buf40 buf41 (by decide) (by decide) (by decide)

/-- Claim C5: for every 32-byte digest, output word i is the big-endian
value of digest bytes [4i, 4i+4), and re-encoding the 8 words big-endian
and concatenating reconstructs the digest exactly. -/
theorem outputWords_roundtrip (digest : List Nat) (h32 : digest.length = 32)
    (hb : ∀ b ∈ digest, b < 256) :
    (∀ i, i < 8 → (outputWords digest).getD i 0 =
        digest.getD (4 * i) 0 * 16777216 + digest.getD (4 * i + 1) 0 * 65536
        + digest.getD (4 * i + 2) 0 * 256 + digest.getD (4 * i + 3) 0)
    ∧ ((outputWords digest).map (beBytes 4)).flatten = digest := by
  have hchunklen : ∀ i, i < 8 → ((digest.drop (4 * i)).take 4).length = 4 := by
    intro i hi
    simp [List.length_take, List.length_drop, h32]
    omega
  have hchunkget : ∀ i, i < 8 → ∀ j, j < 4 →
      ((digest.drop (4 * i)).take 4).getD j 0 = digest.getD (4 * i + j) 0 := by
    intro i hi j hj
    simp [List.getD_eq_getElem?_getD, List.getElem?_take, hj, List.getElem?_drop]
  constructor
  · intro i hi
    have hw : (outputWords digest).getD i 0 = beVal ((digest.drop (4 * i)).take 4) := by
      simp [outputWords, List.getD_eq_getElem?_getD, List.getElem?_map,
            List.getElem?_range, hi]
    rw [hw, beVal_len4 _ (hchunklen i hi),
        hchunkget i hi 0 (by omega), hchunkget i hi 1 (by omega),
        hchunkget i hi 2 (by omega), hchunkget i hi 3 (by omega)]
    norm_num
  · rw [outputWords, List.map_map]
    have hcongr : (List.range 8).map ((beBytes 4) ∘ (fun i => beVal ((digest.drop (4 * i)).take 4)))
        = (List.range 8).map (fun i => (digest.drop (4 * i)).take 4) := by
      apply List.map_congr_left
      intro i hi
      have hi8 : i < 8 := List.mem_range.mp hi
      simp only [Function.comp]
      apply beBytes_beVal_len4 _ (hchunklen i hi8)
      intro b hbmem
      exact hb b (List.mem_of_mem_drop (List.mem_of_mem_take hbmem))
    rw [hcongr]
    exact flatten_chunks4 8 digest (by omega)

/-- Witness for C5 at the digest 0, 1, ..., 31. -/
theorem outputWords_roundtrip_witness :
    (∀ i, i < 8 → (outputWords (List.range 32)).getD i 0 =
        (List.range 32).getD (4 * i) 0 * 16777216 + (List.range 32).getD (4 * i + 1) 0 * 65536
        + (List.range 32).getD (4 * i + 2) 0 * 256 + (List.range 32).getD (4 * i + 3) 0)
    ∧ ((outputWords (List.range 32)).map (beBytes 4)).flatten = List.range 32 :=
  outputWords_roundtrip (List.range 32) (by decide) (by decide)

/-- Claim C9 (amended): in the trading-signal variant, on every buffer of
length at least 24, output 1 is 1 below -500, 2 above 300 and 0 on
[-500, 300]; output 2 is 3 when the absolute price change exceeds 1000,
except at the minimum i64 -2^63, where i64 abs wraps to -2^63 (release
profile) and the risk written is 1; it is 1 whenever the absolute change is
at most 1000. -/
theorem trading_signal_spec (input : List Nat) (h24 : 24 ≤ input.length)
    (hb : ∀ b ∈ input, b < 256) :
    ∃ outs, tradingOutputs input = Except.ok outs ∧
      ((i64FromLE ((input.drop 8).take 8) < -500 → outs.getD 1 0 = 1)
       ∧ (i64FromLE ((input.drop 8).take 8) > 300 → outs.getD 1 0 = 2)
       ∧ (-500 ≤ i64FromLE ((input.drop 8).take 8) →
          i64FromLE ((input.drop 8).take 8) ≤ 300 → outs.getD 1 0 = 0)
       ∧ (1000 < |i64FromLE ((input.drop 8).take 8)| →
          i64FromLE ((input.drop 8).take 8) ≠ -9223372036854775808 → outs.getD 2 0 = 3)
       ∧ (|i64FromLE ((input.drop 8).take 8)| ≤ 1000 ∨
          i64FromLE ((input.drop 8).take 8) = -9223372036854775808 → outs.getD 2 0 = 1)) := by
  have h8 : 8 ≤ input.length := by omega
  have h16 : 16 ≤ input.length := by omega
  have hok : tradingOutputs input = Except.ok
      [leU64 ((input.drop 16).take 8) % 4294967296,
       toU32 (if i64FromLE ((input.drop 8).take 8) < -500 then 1
              else if i64FromLE ((input.drop 8).take 8) > 300 then 2 else 0),
       toU32 (if absI64 (i64FromLE ((input.drop 8).take 8)) > 1000 then 3 else 1),
       (leU64 (input.take 8) / 100) % 4294967296] := by
    simp [tradingOutputs, rustSlice, h8, h16, h24, Bind.bind, Except.bind]
  refine ⟨_, hok, ?_, ?_, ?_, ?_, ?_⟩
  · intro hlt
    simp [List.getD, hlt, toU32]
    try decide
  · intro hgt
    have hnlt : ¬ i64FromLE ((input.drop 8).take 8) < -500 := by omega
    simp [List.getD, hnlt, hgt, toU32]
    try decide
  · intro hge hle
    have hnlt : ¬ i64FromLE ((input.drop 8).take 8) < -500 := by omega
    have hngt : ¬ i64FromLE ((input.drop 8).take 8) > 300 := by omega
    simp [List.getD, hnlt, hngt, toU32]
    try decide
  · intro habs hne
    have habs2 : absI64 (i64FromLE ((input.drop 8).take 8)) > 1000 := by
      rw [absI64]
      simp [hne]
      omega
    simp [List.getD, habs2, toU32]
    try decide
  · intro hcase
    have habs2 : ¬ absI64 (i64FromLE ((input.drop 8).take 8)) > 1000 := by
      rcases hcase with hle | hmin
      · rw [absI64]
        by_cases hmin : i64FromLE ((input.drop 8).take 8) = -9223372036854775808
        · simp [hmin]
        · simp [hmin]
          omega
      · rw [absI64]
        simp [hmin]
    simp [List.getD, habs2, toU32]
    try decide

/-- Witness for C9 at a concrete buffer whose price change is -1000. -/
theorem trading_signal_spec_witness :
    ∃ outs, tradingOutputs tradeDemo = Except.ok outs ∧
      ((i64FromLE ((tradeDemo.drop 8).take 8) < -500 → outs.getD 1 0 = 1)
       ∧ (i64FromLE ((tradeDemo.drop 8).take 8) > 300 → outs.getD 1 0 = 2)
       ∧ (-500 ≤ i64FromLE ((tradeDemo.drop 8).take 8) →
          i64FromLE ((tradeDemo.drop 8).take 8) ≤ 300 → outs.getD 1 0 = 0)
       ∧ (1000 < |i64FromLE ((tradeDemo.drop 8).take 8)| →
          i64FromLE ((tradeDemo.drop 8).take 8) ≠ -9223372036854775808 → outs.getD 2 0 = 3)
       ∧ (|i64FromLE ((tradeDemo.drop 8).take 8)| ≤ 1000 ∨
          i64FromLE ((tradeDemo.drop 8).take 8) = -9223372036854775808 → outs.getD 2 0 = 1)) :=
  trading_signal_spec tradeDemo (by decide) (by decide)

/-- Counterexample for C9 as stated: when the price-change field holds the
minimum i64, its mathematical absolute value exceeds 1000, yet the risk
output (index 2) is 1, not 3, because i64 abs wraps at the minimum. -/
theorem trading_risk_counterexample :
    1000 < |i64FromLE ((tradeMin.drop 8).take 8)|
    ∧ tradingOutputs tradeMin = Except.ok [0, 1, 1, 0] := by
  constructor
  · decide
  · rfl

/-- Claim C10: the preprocessing step always produces a 32-byte seed from
the secret bytes, truncating at 32 and padding with zero bytes, and writes
a 40-byte blob: the count as 8 little-endian bytes, then the seed. -/
theorem prepareBlob_spec (n : Nat) (secret : List Nat)
    (hn : n < 18446744073709551616) :
    (vecResize secret 32 0).length = 32
    ∧ (32 ≤ secret.length → vecResize secret 32 0 = secret.take 32)
    ∧ (secret.length < 32 →
        vecResize secret 32 0 = secret ++ List.replicate (32 - secret.length) 0)
    ∧ (prepareBlob n secret).length = 40
    ∧ (prepareBlob n secret).take 8 = leBytes 8 n
    ∧ leU64 ((prepareBlob n secret).take 8) = n
    ∧ (prepareBlob n secret).drop 8 = vecResize secret 32 0 := by
  have hreslen : (vecResize secret 32 0).length = 32 := by
    simp [vecResize, List.length_take, List.length_replicate]
    omega
  have hlelen : (leBytes 8 n).length = 8 := leBytes_length 8 n
  have htake : (prepareBlob n secret).take 8 = leBytes 8 n := by
    rw [prepareBlob]
    have h2 := List.take_left (leBytes 8 n) (vecResize secret 32 0)
    rwa [hlelen] at h2
  refine ⟨hreslen, ?_, ?_, ?_, htake, ?_, ?_⟩
  · intro hge
    simp [vecResize, Nat.sub_eq_zero_of_le hge]
  · intro hlt
    have : secret.take 32 = secret := List.take_of_length_le (by omega)
    simp [vecResize, this]
  · simp [prepareBlob, hlelen, hreslen]
  · rw [htake, leU64_leBytes 8 n]
    exact Nat.mod_eq_of_lt hn
  · rw [prepareBlob]
    have h2 := List.drop_left (leBytes 8 n) (vecResize secret 32 0)
    rwa [hlelen] at h2

/-- Witness for C10 at n = 5 and the 6-byte secret bytes of the string
from input.json. -/
theorem prepareBlob_spec_witness :
    (vecResize [115, 101, 99, 114, 101, 116] 32 0).length = 32
    ∧ (32 ≤ ([115, 101, 99, 114, 101, 116] : List Nat).length →
        vecResize [115, 101, 99, 114, 101, 116] 32 0 = ([115, 101, 99, 114, 101, 116] : List Nat).take 32)
    ∧ (([115, 101, 99, 114, 101, 116] : List Nat).length < 32 →
        vecResize [115, 101, 99, 114, 101, 116] 32 0 =
          [115, 101, 99, 114, 101, 116] ++ List.replicate (32 - ([115, 101, 99, 114, 101, 116] : List Nat).length) 0)
    ∧ (prepareBlob 5 [115, 101, 99, 114, 101, 116]).length = 40
    ∧ (prepareBlob 5 [115, 101, 99, 114, 101, 116]).take 8 = leBytes 8 5
    ∧ leU64 ((prepareBlob 5 [115, 101, 99, 114, 101, 116]).take 8) = 5
    ∧ (prepareBlob 5 [115, 101, 99, 114, 101, 116]).drop 8 = vecResize [115, 101, 99, 114, 101, 116] 32 0 :=
  prepareBlob_spec 5 [115, 101, 99, 114, 101, 116] (by decide)

end ZKMDP
